import Mathlib

/-!
Shallow embedding of the descriptor-chain builder / buffer-flip controller of
`src/i2s_parallel.c` and of the bitplane encoder / interleave scheduler of
`src/app_main.c` (michael-betz/sprite_tm_led_matrix), together with proofs of
the specification claims about them.

Modelling conventions:
* Machine integers become `Nat` (all the relevant C values are nonnegative and
  far below any overflow bound) except where the C code relies on signedness
  (`int brightness`, `int bufid`, the descriptor counts compared with `<= 0`),
  which become `Int`, and the one place where unsigned wraparound matters
  (`(y-1)` on an `unsigned int`), which is taken modulo `2^32` explicitly.
* The two DMA descriptor arrays are lists; a C pointer `&dmadesc[n]` of ring
  `r` is represented as the pair `⟨r, n⟩` (`DescRef`).  Data pointers are
  byte addresses (`Nat`).
* The framebuffer byte array is a function `Nat → Nat` from byte address to
  byte value.
-/

set_option maxRecDepth 40000

/-- Max bytes per DMA descriptor: `#define DMA_MAX (4096-4)`. -/
def DMA_MAX : Nat := 4096 - 4

/-- Which of the two descriptor rings (`dmadesc_a` / `dmadesc_b`) a
descriptor pointer points into. -/
inductive RingId
  | a
  | b
deriving DecidableEq

/-- A descriptor pointer `&dmadesc[idx]` of ring `ring`. -/
structure DescRef where
  ring : RingId
  idx : Nat
deriving DecidableEq

/-- One `lldesc_t` DMA descriptor, with the fields `fill_dma_desc` writes.
`next` models `qe.stqe_next`. -/
structure DmaDesc where
  size : Nat
  length : Nat
  buf : Nat
  eof : Nat
  sosf : Nat
  owner : Nat
  next : DescRef
  offset : Nat
deriving DecidableEq

/-- Placeholder descriptor used as the default of `List.getD` lookups. -/
def dummyDesc : DmaDesc :=
  { size := 0, length := 0, buf := 0, eof := 0, sosf := 0, owner := 0,
    next := ⟨RingId.a, 0⟩, offset := 0 }

/-- One `i2s_parallel_buffer_desc_t` entry: `memory` is `none` for the NULL
sentinel, `some base` for a data pointer. -/
structure BufEntry where
  memory : Option Nat
  size : Nat
deriving DecidableEq

/-- The NULL end marker entry (`bufdesc[last].memory = NULL`). -/
def sentinelEntry : BufEntry := { memory := none, size := 0 }

/-- A proper (non-sentinel) buffer segment from a `(base address, size)` pair. -/
def segEntry (p : Nat × Nat) : BufEntry := { memory := some p.1, size := p.2 }

/-- A sentinel-terminated descriptor input: the proper segments `pre`, the
sentinel, and arbitrary further array contents `junk` past the sentinel. -/
def mkEntries (pre : List (Nat × Nat)) (junk : List BufEntry) : List BufEntry :=
  pre.map segEntry ++ sentinelEntry :: junk

/-- `calc_needed_dma_descs_for`: walk the entries up to the first NULL
`memory`, summing `(size + DMA_MAX - 1) / DMA_MAX` per segment. -/
def calc_needed_dma_descs_for : List BufEntry → Nat
  | [] => 0
  | e :: rest =>
    match e.memory with
    | none => 0
    | some _ => (e.size + DMA_MAX - 1) / DMA_MAX + calc_needed_dma_descs_for rest

/-- The inner `while (len)` loop of `fill_dma_desc` for one segment, with an
explicit fuel argument (the loop runs at most `len` times since every chunk
is at least one byte).  Each produced element pairs the array index `n` that
the C code writes with the descriptor value written there. -/
def chunkDescsF (r : RingId) : Nat → Nat → Nat → Nat → List (Nat × DmaDesc)
  | 0, _, _, _ => []
  | fuel + 1, data, len, n =>
    if len = 0 then []
    else
      let dmalen := if DMA_MAX < len then DMA_MAX else len
      (n, { size := dmalen, length := dmalen, buf := data, eof := 0, sosf := 0,
            owner := 1, next := ⟨r, n + 1⟩, offset := 0 }) ::
        chunkDescsF r fuel (data + dmalen) (len - dmalen) (n + 1)

/-- Chunk splitting of one segment of `len` bytes at base `data`, starting at
descriptor index `n`. -/
def chunkDescs (r : RingId) (data len n : Nat) : List (Nat × DmaDesc) :=
  chunkDescsF r len data len n

/-- The outer `for` loop of `fill_dma_desc`: walk the segments up to the
sentinel, emitting chunk descriptors at consecutive indices. -/
def fillPass (r : RingId) : List BufEntry → Nat → List (Nat × DmaDesc)
  | [], _ => []
  | e :: rest, n =>
    match e.memory with
    | none => []
    | some data =>
      let cs := chunkDescs r data e.size n
      cs ++ fillPass r rest (n + cs.length)

/-- Overwrite the `next` field of the descriptor at index `i` (the only kind
of in-place descriptor update the driver performs after the fill pass). -/
def modifyNext : List DmaDesc → Nat → DescRef → List DmaDesc
  | [], _, _ => []
  | d :: rest, 0, nx => { d with next := nx } :: rest
  | d :: rest, i + 1, nx => d :: modifyNext rest i nx

/-- `fill_dma_desc`: fill descriptors for all segments, then
`dmadesc[n-1].qe.stqe_next = &dmadesc[0]` (loop the last back to the first).
The final write indexes `n - 1`; for `n = 0` the C code would write out of
bounds, which is why the claims about this function assume at least one
descriptor is produced. -/
def fill_dma_desc (r : RingId) (bufdesc : List BufEntry) : List DmaDesc :=
  let ds := (fillPass r bufdesc 0).map Prod.snd
  modifyNext ds (ds.length - 1) ⟨r, 0⟩

/-- The per-device `i2s_parallel_state_t`. -/
structure I2SParallelState where
  dmadesc_a : List DmaDesc
  dmadesc_b : List DmaDesc
  desccount_a : Int
  desccount_b : Int
deriving DecidableEq

/-- `i2s_parallel_flip_to_buffer` for one device.  `none` models the
`i2s_state[no] == NULL` situation before `i2s_parallel_setup` ran.  The C
function is `void` and has no other observable effect than the two
tail-descriptor writes. -/
def i2s_parallel_flip_to_buffer (st : Option I2SParallelState) (bufid : Int) :
    Option I2SParallelState :=
  match st with
  | none => none
  | some s =>
    if s.desccount_b ≤ 0 then some s
    else
      let active : DescRef := if bufid = 0 then ⟨RingId.a, 0⟩ else ⟨RingId.b, 0⟩
      some { s with
        dmadesc_a := modifyNext s.dmadesc_a (s.desccount_a - 1).toNat active,
        dmadesc_b := modifyNext s.dmadesc_b (s.desccount_b - 1).toNat active }

/-! ## Bitplane interleave scheduler (`app_main`, the `times[]` loop) -/

/-- `#define BITPLANE_CNT 7`. -/
def BITPLANE_CNT : Nat := 7

/-- The inner selection loop: `ch=0; for (j=0;j<cnt;j++) if (times[j] <=
times[ch]) ch=j;`.  Note `<=`: a later index attaining the minimum replaces
an earlier one. -/
def argminLe (times : List Nat) : Nat :=
  (List.range times.length).foldl
    (fun ch j => if times.getD j 0 ≤ times.getD ch 0 then j else ch) 0

/-- The `times[]` array before output position `k` of the scheduling loop
(all zero initially; the chosen plane's counter grows by
`1 << (BITPLANE_CNT - ch)` each step). -/
def schedTimes (B : Nat) : Nat → List Nat
  | 0 => List.replicate B 0
  | k + 1 =>
    let t := schedTimes B k
    let ch := argminLe t
    t.set ch (t.getD ch 0 + 2 ^ (B - ch))

/-- The emitted bitplane ordering: the plane chosen at each of the
`2^B - 1` output positions. -/
def bitplaneOrder (B : Nat) : List Nat :=
  (List.range (2 ^ B - 1)).map fun k => argminLe (schedTimes B k)

/-- The selection rule exactly as the specification words it (for comparison
with `argminLe`): the plane with the minimum current counter, ties broken by
the lowest plane index. -/
def spec_select (times : List Nat) : Nat :=
  ((List.range times.length).filter fun j =>
    (List.range times.length).all fun i => times.getD j 0 ≤ times.getD i 0).headD 0

/-- Decidable per-step check used for the corrected selection claim: at step
`k` the chosen plane is in range, attains the minimum counter, every strictly
larger index has a strictly larger counter (so ties break toward the highest
index), the emitted ordering records exactly that plane, and the counter
update adds `2 ^ (B - ch)`. -/
def stepOk (B k : Nat) : Bool :=
  let t := schedTimes B k
  let ch := argminLe t
  decide (ch < B) &&
  ((List.range B).all fun j => t.getD ch 0 ≤ t.getD j 0) &&
  ((List.range B).all fun j => decide (j ≤ ch) || decide (t.getD ch 0 < t.getD j 0)) &&
  ((bitplaneOrder B).getD k (B + 1) == ch) &&
  (schedTimes B (k + 1) == t.set ch (t.getD ch 0 + 2 ^ (B - ch)))

/-! ## Bitplane encoder (`update_frame` inner word computation) -/

/-- `#define DISPLAY_WIDTH 128`. -/
def DISPLAY_WIDTH : Nat := 128

/-- `#define DISPLAY_HEIGHT 32`. -/
def DISPLAY_HEIGHT : Nat := 32

/-- Bit masks of the 16-bit DMA word. -/
def BIT_R1 : Nat := 1 <<< 0

/-- Green, upper half. -/
def BIT_G1 : Nat := 1 <<< 1

/-- Blue, upper half. -/
def BIT_B1 : Nat := 1 <<< 2

/-- Red, lower half. -/
def BIT_R2 : Nat := 1 <<< 3

/-- Green, lower half. -/
def BIT_G2 : Nat := 1 <<< 4

/-- Blue, lower half. -/
def BIT_B2 : Nat := 1 <<< 5

/-- Row address bit A. -/
def BIT_A : Nat := 1 <<< 8

/-- Row address bit B. -/
def BIT_B : Nat := 1 <<< 9

/-- Row address bit C. -/
def BIT_C : Nat := 1 <<< 10

/-- Row address bit D. -/
def BIT_D : Nat := 1 <<< 11

/-- Latch enable. -/
def BIT_LAT : Nat := 1 <<< 12

/-- Output enable (active low, i.e. blank). -/
def BIT_OE : Nat := 1 <<< 13

/-- Modulus of the 32-bit unsigned arithmetic on the row variable `y`. -/
def U32 : Nat := 2 ^ 32

/-- The `lbits` row-address computation of `update_frame`: the four address
bits of `y - 1` where `y` is `unsigned int`, so `y = 0` wraps to
`0xFFFFFFFF`. -/
def lbits (y : Nat) : Nat :=
  let ym1 := (y + (U32 - 1)) % U32
  let v0 : Nat := 0
  let v1 := if ym1 &&& 1 ≠ 0 then v0 ||| BIT_A else v0
  let v2 := if ym1 &&& 2 ≠ 0 then v1 ||| BIT_B else v1
  let v3 := if ym1 &&& 4 ≠ 0 then v2 ||| BIT_C else v2
  if ym1 &&& 8 ≠ 0 then v3 ||| BIT_D else v3

/-- `getPixel`: read the three bytes of pixel `(x, y)` from the framebuffer
byte array and pack them as `(r << 16) | (g << 8) | b`. -/
def getPixel (buf : Nat → Nat) (x y : Nat) : Nat :=
  let p := (x + y * DISPLAY_WIDTH) * 3
  (buf p <<< 16) ||| (buf (p + 1) <<< 8) ||| buf (p + 2)

/-- The 16-bit word `update_frame` assembles and stores at
(plane `pl`, row `y`, column `x`), for brightness limit `brightness`:
row-address bits of the previous row, blank bit for `x >= brightness`,
latch on the last column, and the six RGB bits of bitplane `pl` taken from
pixel `(x, y)` and its paired pixel `(x, y + 16)`. -/
def update_frame_word (fb : Nat → Nat) (brightness : Int) (pl x y : Nat) : Nat :=
  let mask : Nat := 1 <<< (8 - BITPLANE_CNT + pl)
  let v0 := lbits y
  let v1 := if brightness ≤ (x : Int) then v0 ||| BIT_OE else v0
  let v2 := if x = DISPLAY_WIDTH - 1 then v1 ||| BIT_LAT else v1
  let c1 := getPixel fb x y
  let c2 := getPixel fb x (y + 16)
  let v3 := if c1 &&& (mask <<< 16) ≠ 0 then v2 ||| BIT_R1 else v2
  let v4 := if c1 &&& (mask <<< 8) ≠ 0 then v3 ||| BIT_G1 else v3
  let v5 := if c1 &&& (mask <<< 0) ≠ 0 then v4 ||| BIT_B1 else v4
  let v6 := if c2 &&& (mask <<< 16) ≠ 0 then v5 ||| BIT_R2 else v5
  let v7 := if c2 &&& (mask <<< 8) ≠ 0 then v6 ||| BIT_G2 else v6
  if c2 &&& (mask <<< 0) ≠ 0 then v7 ||| BIT_B2 else v7

/-- Total payload bytes of the entries before the sentinel (the claims'
`total_size`). -/
def totalSize : List BufEntry → Nat
  | [] => 0
  | e :: rest =>
    match e.memory with
    | none => 0
    | some _ => e.size + totalSize rest

/-- Index of the descriptor that descriptor `i` of array `d` links to. -/
def nextIdx (d : List DmaDesc) (i : Nat) : Nat := ((d.getD i dummyDesc).next).idx

/-- Follow `k` next-references starting from descriptor index `s`. -/
def iterNext (d : List DmaDesc) (s : Nat) : Nat → Nat
  | 0 => s
  | k + 1 => nextIdx d (iterNext d s k)

/-- A configured single-ring state (no double buffering: `desccount_b = 0`). -/
def singleRingState : I2SParallelState :=
  { dmadesc_a := [dummyDesc], dmadesc_b := [], desccount_a := 1, desccount_b := 0 }

/-- Constant all-`0xAA` framebuffer used by concrete witnesses. -/
def constFrame : Nat → Nat := fun _ => 170

/-! ## Helper lemmas about `modifyNext` -/

lemma modifyNext_length (l : List DmaDesc) (i : Nat) (nx : DescRef) :
    (modifyNext l i nx).length = l.length := by
  induction l generalizing i with
  | nil => rfl
  | cons d rest ih =>
    cases i with
    | zero => rfl
    | succ j => simpa [modifyNext] using ih j

lemma modifyNext_getD_self (l : List DmaDesc) (i : Nat) (nx : DescRef)
    (h : i < l.length) :
    (modifyNext l i nx).getD i dummyDesc = { l.getD i dummyDesc with next := nx } := by
  induction l generalizing i with
  | nil => simp at h
  | cons d rest ih =>
    cases i with
    | zero => rfl
    | succ j =>
      simp only [modifyNext, List.getD_cons_succ]
      exact ih j (by simpa using h)

lemma modifyNext_getD_ne (l : List DmaDesc) (i : Nat) (nx : DescRef) (j : Nat)
    (hj : j ≠ i) :
    (modifyNext l i nx).getD j dummyDesc = l.getD j dummyDesc := by
  induction l generalizing i j with
  | nil => rfl
  | cons d rest ih =>
    cases i with
    | zero =>
      cases j with
      | zero => exact absurd rfl hj
      | succ j' => rfl
    | succ i' =>
      cases j with
      | zero => rfl
      | succ j' =>
        simp only [modifyNext, List.getD_cons_succ]
        exact ih i' j' (fun h => hj (by simp [h]))

/-- C1: for a configured double-buffered state (both descriptor rings built,
both counts positive), flipping to slot `bufid` rewrites the tail
descriptor's next-reference of **both** rings to the head descriptor
(index 0) of the ring selected by `bufid` (ring A for `bufid = 0`, ring B
otherwise), leaving the ring lengths unchanged. -/
theorem flip_retargets_both_tails (s : I2SParallelState) (bufid : Int)
    (hca : s.desccount_a = (s.dmadesc_a.length : Int))
    (hcb : s.desccount_b = (s.dmadesc_b.length : Int))
    (hpa : 0 < s.desccount_a) (hpb : 0 < s.desccount_b) :
    ∃ s', i2s_parallel_flip_to_buffer (some s) bufid = some s' ∧
      s'.dmadesc_a.length = s.dmadesc_a.length ∧
      s'.dmadesc_b.length = s.dmadesc_b.length ∧
      (s'.dmadesc_a.getD (s.dmadesc_a.length - 1) dummyDesc).next =
        (if bufid = 0 then DescRef.mk RingId.a 0 else DescRef.mk RingId.b 0) ∧
      (s'.dmadesc_b.getD (s.dmadesc_b.length - 1) dummyDesc).next =
        (if bufid = 0 then DescRef.mk RingId.a 0 else DescRef.mk RingId.b 0) := by
  have hta : (s.desccount_a - 1).toNat = s.dmadesc_a.length - 1 := by omega
  have htb : (s.desccount_b - 1).toNat = s.dmadesc_b.length - 1 := by omega
  have hla : s.dmadesc_a.length - 1 < s.dmadesc_a.length := by omega
  have hlb : s.dmadesc_b.length - 1 < s.dmadesc_b.length := by omega
  refine ⟨{ s with
      dmadesc_a := modifyNext s.dmadesc_a (s.desccount_a - 1).toNat
        (if bufid = 0 then ⟨RingId.a, 0⟩ else ⟨RingId.b, 0⟩),
      dmadesc_b := modifyNext s.dmadesc_b (s.desccount_b - 1).toNat
        (if bufid = 0 then ⟨RingId.a, 0⟩ else ⟨RingId.b, 0⟩) }, ?_, ?_, ?_, ?_, ?_⟩
  · simp only [i2s_parallel_flip_to_buffer]
    rw [if_neg (by omega)]
  · exact modifyNext_length _ _ _
  · exact modifyNext_length _ _ _
  · rw [hta, modifyNext_getD_self _ _ _ hla]
  · rw [htb, modifyNext_getD_self _ _ _ hlb]

/-- C1 witness: concrete one-descriptor-per-ring state flipped to slot 1. -/
theorem flip_retargets_both_tails_witness :
    let s : I2SParallelState :=
      { dmadesc_a := [dummyDesc], dmadesc_b := [dummyDesc],
        desccount_a := 1, desccount_b := 1 }
    (s.desccount_a = (s.dmadesc_a.length : Int)) ∧
    (s.desccount_b = (s.dmadesc_b.length : Int)) ∧
    0 < s.desccount_a ∧ 0 < s.desccount_b ∧
    (∃ s', i2s_parallel_flip_to_buffer (some s) 1 = some s' ∧
      s'.dmadesc_a.length = s.dmadesc_a.length ∧
      s'.dmadesc_b.length = s.dmadesc_b.length ∧
      (s'.dmadesc_a.getD (s.dmadesc_a.length - 1) dummyDesc).next =
        (if (1 : Int) = 0 then DescRef.mk RingId.a 0 else DescRef.mk RingId.b 0) ∧
      (s'.dmadesc_b.getD (s.dmadesc_b.length - 1) dummyDesc).next =
        (if (1 : Int) = 0 then DescRef.mk RingId.a 0 else DescRef.mk RingId.b 0)) :=
  ⟨by decide, by decide, by decide, by decide,
    flip_retargets_both_tails _ 1 (by decide) (by decide) (by decide) (by decide)⟩

/-- C9 counterexample: invoked before setup (`i2s_state == NULL`), the flip
is itself a *silent* early return — the whole observable behaviour of the
`void` C function is the identity on the driver state, with no failure
signalled, exactly like the documented single-ring no-op shown in the second
conjunct.  This refutes the claim that the use-before-setup path is a
"defensive fast failure rather than a silent no-op". -/
theorem flip_before_setup_is_silent_noop :
    i2s_parallel_flip_to_buffer none 1 = none ∧
    i2s_parallel_flip_to_buffer (some singleRingState) 1 = some singleRingState := by
  decide

/-- C9 (amended): if the flip is invoked before setup, the defensive
null-state check returns immediately and every piece of peripheral and
descriptor state is left unchanged; this early return is silent (the
function signals nothing), observably the same kind of no-op as the
documented single-ring case, which likewise returns without modifying any
descriptor. -/
theorem flip_early_return_states_unchanged (bufid : Int) (s : I2SParallelState)
    (h : s.desccount_b ≤ 0) :
    i2s_parallel_flip_to_buffer none bufid = none ∧
    i2s_parallel_flip_to_buffer (some s) bufid = some s := by
  refine ⟨rfl, ?_⟩
  simp only [i2s_parallel_flip_to_buffer]
  rw [if_pos h]

/-- C9 witness: the amended theorem at the concrete single-ring state. -/
theorem flip_early_return_states_unchanged_witness :
    singleRingState.desccount_b ≤ 0 ∧
    (i2s_parallel_flip_to_buffer none 0 = none ∧
      i2s_parallel_flip_to_buffer (some singleRingState) 0 = some singleRingState) :=
  ⟨by decide, flip_early_return_states_unchanged 0 singleRingState (by decide)⟩

/-- C4 counterexample: for `BITPLANE_CNT = 3` the schedule emits plane 0
exactly once, not the `2^(3-1-0) = 4` times the claim asserts; the claim's
frequency formula is inverted. -/
theorem bitplaneOrder_count_refutes_claim :
    ¬ ((bitplaneOrder 3).count 0 = 2 ^ (3 - 1 - 0)) := by decide

/-- C4 (amended): the scheduler produces an ordering of length
`2^BITPLANE_CNT - 1` over plane indices `[0, BITPLANE_CNT)` in which plane
`p` appears exactly `2^p` times (higher-order planes appear more often);
concretely for `BITPLANE_CNT = 3` the ordering has length 7, plane 0 appears
1 time, plane 1 appears 2 times and plane 2 appears 4 times. -/
theorem bitplaneOrder_length_and_counts :
    (bitplaneOrder 3).length = 2 ^ 3 - 1 ∧
    (∀ p, p < 3 → (bitplaneOrder 3).count p = 2 ^ p) ∧
    (∀ e ∈ bitplaneOrder 3, e < 3) ∧
    (bitplaneOrder BITPLANE_CNT).length = 2 ^ BITPLANE_CNT - 1 ∧
    (∀ p, p < BITPLANE_CNT → (bitplaneOrder BITPLANE_CNT).count p = 2 ^ p) ∧
    (∀ e ∈ bitplaneOrder BITPLANE_CNT, e < BITPLANE_CNT) := by decide

/-- C5 counterexample: at output position 0 all per-plane counters are zero;
the claim's rule (minimum counter, ties to the LOWEST plane index) would
select plane 0, but the code's `<=` comparison makes the highest tied index
win, so plane `BITPLANE_CNT - 1 = 6` is selected and emitted. -/
theorem sched_first_pick_refutes_lowest_tie :
    argminLe (schedTimes BITPLANE_CNT 0) = 6 ∧
    spec_select (schedTimes BITPLANE_CNT 0) = 0 ∧
    (bitplaneOrder BITPLANE_CNT).getD 0 (BITPLANE_CNT + 1) = 6 ∧ (6 : Nat) ≠ 0 := by
  decide

/-- C5 (amended): at each of the `2^BITPLANE_CNT - 1` output positions,
starting from all counters zero, the plane selected is one attaining the
minimum current counter with ties broken by the HIGHEST plane index, and
after placement that plane's counter increases by exactly
`2^(BITPLANE_CNT - chosen_plane)`. -/
theorem sched_step_min_highest_tie (k : Nat) (hk : k < 2 ^ BITPLANE_CNT - 1) :
    stepOk BITPLANE_CNT k = true := by
  revert k
  decide

/-- C5 witness: the amended per-step property at position 0. -/
theorem sched_step_min_highest_tie_witness :
    0 < 2 ^ BITPLANE_CNT - 1 ∧ stepOk BITPLANE_CNT 0 = true :=
  ⟨by decide, sched_step_min_highest_tie 0 (by decide)⟩

/-! ## Helper lemmas for the encoder word -/

lemma testBit_ite_or (c : Prop) [Decidable c] (a b i : Nat) :
    (if c then a ||| b else a).testBit i = (a.testBit i || (decide c && b.testBit i)) := by
  by_cases h : c <;> simp [h, Nat.testBit_lor]

lemma testBit_byte_ge8 (v i : Nat) (hv : v < 256) (hi : 8 ≤ i) : v.testBit i = false := by
  apply Nat.testBit_lt_two_pow
  calc v < 2 ^ 8 := hv
    _ ≤ 2 ^ i := Nat.pow_le_pow_right (by norm_num) hi

lemma and_two_pow_ne (n i : Nat) : decide (n &&& 2 ^ i ≠ 0) = n.testBit i := by
  rcases h : n.testBit i with _ | _ <;>
    simp [Nat.and_two_pow, h, Nat.pos_iff_ne_zero, pow_ne_zero]

lemma lbits_addr : ∀ y, y < 16 → ∀ k, k < 4 →
    (lbits y).testBit (8 + k) = ((y + 15) % 16).testBit k := by decide

lemma lbits_low : ∀ y, y < 16 → ∀ i, i < 8 → (lbits y).testBit i = false := by decide

lemma lbits_bit12 : ∀ y, y < 16 → (lbits y).testBit 12 = false := by decide

lemma lbits_bit13 : ∀ y, y < 16 → (lbits y).testBit 13 = false := by decide

lemma getPixel_mask_hi (fb : Nat → Nat) (hfb : ∀ i, fb i < 256) (x y j : Nat)
    (hj : j < 8) :
    decide (getPixel fb x y &&& ((1 <<< j) <<< 16) ≠ 0) =
      (fb ((x + y * DISPLAY_WIDTH) * 3)).testBit j := by
  have h1 : (1 <<< j) <<< 16 = 2 ^ (16 + j) := by
    simp [Nat.shiftLeft_eq, pow_add, Nat.mul_comm]
  rw [h1, and_two_pow_ne, getPixel]
  have e1 : 16 + j - 16 = j := by omega
  have e2 : 16 + j - 8 = 8 + j := by omega
  have b2 : (fb ((x + y * DISPLAY_WIDTH) * 3 + 1)).testBit (8 + j) = false :=
    testBit_byte_ge8 _ _ (hfb _) (by omega)
  have b3 : (fb ((x + y * DISPLAY_WIDTH) * 3 + 2)).testBit (16 + j) = false :=
    testBit_byte_ge8 _ _ (hfb _) (by omega)
  simp [Nat.testBit_lor, Nat.testBit_shiftLeft, Nat.le_add_right, e1, e2, b2, b3]

lemma getPixel_mask_mid (fb : Nat → Nat) (hfb : ∀ i, fb i < 256) (x y j : Nat)
    (hj : j < 8) :
    decide (getPixel fb x y &&& ((1 <<< j) <<< 8) ≠ 0) =
      (fb ((x + y * DISPLAY_WIDTH) * 3 + 1)).testBit j := by
  have h1 : (1 <<< j) <<< 8 = 2 ^ (8 + j) := by
    simp [Nat.shiftLeft_eq, pow_add, Nat.mul_comm]
  rw [h1, and_two_pow_ne, getPixel]
  have e1 : 8 + j - 8 = j := by omega
  have hno16 : ¬ (16 : Nat) ≤ 8 + j := by omega
  have b3 : (fb ((x + y * DISPLAY_WIDTH) * 3 + 2)).testBit (8 + j) = false :=
    testBit_byte_ge8 _ _ (hfb _) (by omega)
  simp [Nat.testBit_lor, Nat.testBit_shiftLeft, Nat.le_add_right, e1, hno16, b3]

lemma getPixel_mask_lo (fb : Nat → Nat) (x y j : Nat) (hj : j < 8) :
    decide (getPixel fb x y &&& ((1 <<< j) <<< 0) ≠ 0) =
      (fb ((x + y * DISPLAY_WIDTH) * 3 + 2)).testBit j := by
  have h1 : (1 <<< j) <<< 0 = 2 ^ j := by
    simp [Nat.shiftLeft_eq]
  rw [h1, and_two_pow_ne, getPixel]
  have hno16 : ¬ (16 : Nat) ≤ j := by omega
  have hno8 : ¬ (8 : Nat) ≤ j := by omega
  simp [Nat.testBit_lor, Nat.testBit_shiftLeft, hno16, hno8]

lemma testBit_bitconst_ne (b n i : Nat) (hb : b = 2 ^ n) (hi : n ≠ i) :
    b.testBit i = false := by
  subst hb
  simp [Nat.testBit_two_pow, hi]

lemma update_frame_word_bit13 (fb : Nat → Nat) (br : Int) (pl x y : Nat)
    (hy : y < 16) :
    (update_frame_word fb br pl x y).testBit 13 = decide (br ≤ (x : Int)) := by
  simp only [update_frame_word]
  simp only [testBit_ite_or]
  simp [lbits_bit13 y hy,
    show Nat.testBit BIT_OE 13 = true from by decide,
    show Nat.testBit BIT_LAT 13 = false from by decide,
    show Nat.testBit BIT_R1 13 = false from by decide,
    show Nat.testBit BIT_G1 13 = false from by decide,
    show Nat.testBit BIT_B1 13 = false from by decide,
    show Nat.testBit BIT_R2 13 = false from by decide,
    show Nat.testBit BIT_G2 13 = false from by decide,
    show Nat.testBit BIT_B2 13 = false from by decide]

/-- C8: for every plane, row (of the half-panel range) and column, the blank
(output-disable) bit — bit 13, `BIT_OE` — of the encoded word is set iff the
column index is at least the configured brightness limit, uniformly in plane
and row; with limit `DISPLAY_WIDTH` no column of the panel has it set, and
with limit 0 every column has it set. -/
theorem update_frame_word_blank_iff (fb : Nat → Nat) (br : Int) (pl x y : Nat)
    (hy : y < 16) :
    ((update_frame_word fb br pl x y).testBit 13 = true ↔ br ≤ (x : Int)) ∧
    (x < DISPLAY_WIDTH →
      (update_frame_word fb ((DISPLAY_WIDTH : Nat) : Int) pl x y).testBit 13 = false) ∧
    (update_frame_word fb 0 pl x y).testBit 13 = true := by
  refine ⟨?_, ?_, ?_⟩
  · rw [update_frame_word_bit13 fb br pl x y hy]
    simp
  · intro hx
    rw [update_frame_word_bit13 fb _ pl x y hy]
    simp only [decide_eq_false_iff_not, DISPLAY_WIDTH] at hx ⊢
    omega
  · rw [update_frame_word_bit13 fb 0 pl x y hy]
    simp [Int.natCast_nonneg]

/-- C8 witness: the blank-bit property at brightness 16, plane 2, column 20,
row 5 (and the two boundary-brightness parts at the same point). -/
theorem update_frame_word_blank_iff_witness :
    (5 : Nat) < 16 ∧
    (((update_frame_word (fun _ => 170) 16 2 20 5).testBit 13 = true ↔
        (16 : Int) ≤ ((20 : Nat) : Int)) ∧
      ((20 : Nat) < DISPLAY_WIDTH →
        (update_frame_word (fun _ => 170) ((DISPLAY_WIDTH : Nat) : Int) 2 20 5).testBit 13
          = false) ∧
      (update_frame_word (fun _ => 170) 0 2 20 5).testBit 13 = true) :=
  ⟨by decide, update_frame_word_blank_iff (fun _ => 170) 16 2 20 5 (by decide)⟩

/-- C6: for every plane and row `y` of the half-panel range, the four
row-address bits (bits 8–11) of every word of that row encode
`(y - 1) mod 16` — written `(y + 15) % 16` in `Nat` — i.e. the previously
addressed row; in particular for `y = 0` they encode `15`, the topmost valid
row address, not row 0's own address. -/
theorem update_frame_word_row_addr_bits (fb : Nat → Nat) (br : Int)
    (pl x y k : Nat) (hy : y < 16) (hk : k < 4) :
    (update_frame_word fb br pl x y).testBit (8 + k) =
      ((y + 15) % 16).testBit k := by
  simp only [update_frame_word]
  simp only [testBit_ite_or]
  simp [testBit_bitconst_ne BIT_OE 13 (8 + k) (by decide) (by omega),
    testBit_bitconst_ne BIT_LAT 12 (8 + k) (by decide) (by omega),
    testBit_bitconst_ne BIT_R1 0 (8 + k) (by decide) (by omega),
    testBit_bitconst_ne BIT_G1 1 (8 + k) (by decide) (by omega),
    testBit_bitconst_ne BIT_B1 2 (8 + k) (by decide) (by omega),
    testBit_bitconst_ne BIT_R2 3 (8 + k) (by decide) (by omega),
    testBit_bitconst_ne BIT_G2 4 (8 + k) (by decide) (by omega),
    testBit_bitconst_ne BIT_B2 5 (8 + k) (by decide) (by omega),
    lbits_addr y hy k hk]

/-- C6 witness: at row 0 the address bits read 15 (here bit 11, which is
`15.testBit 3 = true`), the address of the last valid row. -/
theorem update_frame_word_row_addr_bits_witness :
    (0 : Nat) < 16 ∧ (3 : Nat) < 4 ∧
    (update_frame_word (fun _ => 170) 16 0 1 0).testBit (8 + 3) =
      (((0 : Nat) + 15) % 16).testBit 3 :=
  ⟨by decide, by decide,
    update_frame_word_row_addr_bits (fun _ => 170) 16 0 1 0 3 (by decide) (by decide)⟩

/-- C7: for every plane `pl < BITPLANE_CNT`, row and column, each of the six
RGB data bits (bits 0–5) of the encoded word is set iff bit
`8 - BITPLANE_CNT + pl` of the corresponding 8-bit source channel is set —
red/green/blue of the current scan-half pixel `(x, y)` for bits 0–2 and of
its paired pixel `(x, y + 16)` (offset by half the panel height) for
bits 3–5. -/
theorem update_frame_word_rgb_bits (fb : Nat → Nat) (hfb : ∀ i, fb i < 256)
    (br : Int) (pl x y : Nat) (hpl : pl < BITPLANE_CNT) (hy : y < 16) :
    ((update_frame_word fb br pl x y).testBit 0 =
      (fb ((x + y * DISPLAY_WIDTH) * 3)).testBit (8 - BITPLANE_CNT + pl)) ∧
    ((update_frame_word fb br pl x y).testBit 1 =
      (fb ((x + y * DISPLAY_WIDTH) * 3 + 1)).testBit (8 - BITPLANE_CNT + pl)) ∧
    ((update_frame_word fb br pl x y).testBit 2 =
      (fb ((x + y * DISPLAY_WIDTH) * 3 + 2)).testBit (8 - BITPLANE_CNT + pl)) ∧
    ((update_frame_word fb br pl x y).testBit 3 =
      (fb ((x + (y + 16) * DISPLAY_WIDTH) * 3)).testBit (8 - BITPLANE_CNT + pl)) ∧
    ((update_frame_word fb br pl x y).testBit 4 =
      (fb ((x + (y + 16) * DISPLAY_WIDTH) * 3 + 1)).testBit (8 - BITPLANE_CNT + pl)) ∧
    ((update_frame_word fb br pl x y).testBit 5 =
      (fb ((x + (y + 16) * DISPLAY_WIDTH) * 3 + 2)).testBit (8 - BITPLANE_CNT + pl)) := by
  have hj : 8 - BITPLANE_CNT + pl < 8 := by
    simp only [BITPLANE_CNT] at hpl ⊢
    omega
  refine ⟨?_, ?_, ?_, ?_, ?_, ?_⟩
  · simp only [update_frame_word]
    simp only [testBit_ite_or]
    rw [lbits_low y hy 0 (by norm_num),
      show Nat.testBit BIT_OE 0 = false from by decide,
      show Nat.testBit BIT_LAT 0 = false from by decide,
      show Nat.testBit BIT_R1 0 = true from by decide,
      show Nat.testBit BIT_G1 0 = false from by decide,
      show Nat.testBit BIT_B1 0 = false from by decide,
      show Nat.testBit BIT_R2 0 = false from by decide,
      show Nat.testBit BIT_G2 0 = false from by decide,
      show Nat.testBit BIT_B2 0 = false from by decide]
    simp only [Bool.and_false, Bool.and_true, Bool.or_false, Bool.false_or]
    exact getPixel_mask_hi fb hfb x y _ hj
  · simp only [update_frame_word]
    simp only [testBit_ite_or]
    rw [lbits_low y hy 1 (by norm_num),
      show Nat.testBit BIT_OE 1 = false from by decide,
      show Nat.testBit BIT_LAT 1 = false from by decide,
      show Nat.testBit BIT_R1 1 = false from by decide,
      show Nat.testBit BIT_G1 1 = true from by decide,
      show Nat.testBit BIT_B1 1 = false from by decide,
      show Nat.testBit BIT_R2 1 = false from by decide,
      show Nat.testBit BIT_G2 1 = false from by decide,
      show Nat.testBit BIT_B2 1 = false from by decide]
    simp only [Bool.and_false, Bool.and_true, Bool.or_false, Bool.false_or]
    exact getPixel_mask_mid fb hfb x y _ hj
  · simp only [update_frame_word]
    simp only [testBit_ite_or]
    rw [lbits_low y hy 2 (by norm_num),
      show Nat.testBit BIT_OE 2 = false from by decide,
      show Nat.testBit BIT_LAT 2 = false from by decide,
      show Nat.testBit BIT_R1 2 = false from by decide,
      show Nat.testBit BIT_G1 2 = false from by decide,
      show Nat.testBit BIT_B1 2 = true from by decide,
      show Nat.testBit BIT_R2 2 = false from by decide,
      show Nat.testBit BIT_G2 2 = false from by decide,
      show Nat.testBit BIT_B2 2 = false from by decide]
    simp only [Bool.and_false, Bool.and_true, Bool.or_false, Bool.false_or]
    exact getPixel_mask_lo fb x y _ hj
  · simp only [update_frame_word]
    simp only [testBit_ite_or]
    rw [lbits_low y hy 3 (by norm_num),
      show Nat.testBit BIT_OE 3 = false from by decide,
      show Nat.testBit BIT_LAT 3 = false from by decide,
      show Nat.testBit BIT_R1 3 = false from by decide,
      show Nat.testBit BIT_G1 3 = false from by decide,
      show Nat.testBit BIT_B1 3 = false from by decide,
      show Nat.testBit BIT_R2 3 = true from by decide,
      show Nat.testBit BIT_G2 3 = false from by decide,
      show Nat.testBit BIT_B2 3 = false from by decide]
    simp only [Bool.and_false, Bool.and_true, Bool.or_false, Bool.false_or]
    exact getPixel_mask_hi fb hfb x (y + 16) _ hj
  · simp only [update_frame_word]
    simp only [testBit_ite_or]
    rw [lbits_low y hy 4 (by norm_num),
      show Nat.testBit BIT_OE 4 = false from by decide,
      show Nat.testBit BIT_LAT 4 = false from by decide,
      show Nat.testBit BIT_R1 4 = false from by decide,
      show Nat.testBit BIT_G1 4 = false from by decide,
      show Nat.testBit BIT_B1 4 = false from by decide,
      show Nat.testBit BIT_R2 4 = false from by decide,
      show Nat.testBit BIT_G2 4 = true from by decide,
      show Nat.testBit BIT_B2 4 = false from by decide]
    simp only [Bool.and_false, Bool.and_true, Bool.or_false, Bool.false_or]
    exact getPixel_mask_mid fb hfb x (y + 16) _ hj
  · simp only [update_frame_word]
    simp only [testBit_ite_or]
    rw [lbits_low y hy 5 (by norm_num),
      show Nat.testBit BIT_OE 5 = false from by decide,
      show Nat.testBit BIT_LAT 5 = false from by decide,
      show Nat.testBit BIT_R1 5 = false from by decide,
      show Nat.testBit BIT_G1 5 = false from by decide,
      show Nat.testBit BIT_B1 5 = false from by decide,
      show Nat.testBit BIT_R2 5 = false from by decide,
      show Nat.testBit BIT_G2 5 = false from by decide,
      show Nat.testBit BIT_B2 5 = true from by decide]
    simp only [Bool.and_false, Bool.and_true, Bool.or_false, Bool.false_or]
    exact getPixel_mask_lo fb x (y + 16) _ hj

/-- C7 witness: the RGB-bit property at the all-`0xAA` framebuffer,
brightness 16, plane 0, column 1, row 2. -/
theorem update_frame_word_rgb_bits_witness :
    (∀ i, constFrame i < 256) ∧ (0 : Nat) < BITPLANE_CNT ∧ (2 : Nat) < 16 ∧
    (((update_frame_word constFrame 16 0 1 2).testBit 0 =
      (constFrame ((1 + 2 * DISPLAY_WIDTH) * 3)).testBit (8 - BITPLANE_CNT + 0)) ∧
    ((update_frame_word constFrame 16 0 1 2).testBit 1 =
      (constFrame ((1 + 2 * DISPLAY_WIDTH) * 3 + 1)).testBit (8 - BITPLANE_CNT + 0)) ∧
    ((update_frame_word constFrame 16 0 1 2).testBit 2 =
      (constFrame ((1 + 2 * DISPLAY_WIDTH) * 3 + 2)).testBit (8 - BITPLANE_CNT + 0)) ∧
    ((update_frame_word constFrame 16 0 1 2).testBit 3 =
      (constFrame ((1 + (2 + 16) * DISPLAY_WIDTH) * 3)).testBit (8 - BITPLANE_CNT + 0)) ∧
    ((update_frame_word constFrame 16 0 1 2).testBit 4 =
      (constFrame ((1 + (2 + 16) * DISPLAY_WIDTH) * 3 + 1)).testBit (8 - BITPLANE_CNT + 0)) ∧
    ((update_frame_word constFrame 16 0 1 2).testBit 5 =
      (constFrame ((1 + (2 + 16) * DISPLAY_WIDTH) * 3 + 2)).testBit (8 - BITPLANE_CNT + 0))) :=
  ⟨fun _ => by simp [constFrame], by decide, by decide,
    update_frame_word_rgb_bits constFrame (fun _ => by simp [constFrame]) 16 0 1 2
      (by decide) (by decide)⟩

/-! ## Chunk-splitting lemmas -/

lemma chunkDescsF_len_zero (r : RingId) (fuel data n : Nat) :
    chunkDescsF r fuel data 0 n = [] := by
  cases fuel <;> rfl

lemma chunkDescsF_succ (r : RingId) (fuel data len n : Nat) :
    chunkDescsF r (fuel + 1) data len n =
      if len = 0 then []
      else
        (n, { size := (if DMA_MAX < len then DMA_MAX else len),
              length := (if DMA_MAX < len then DMA_MAX else len),
              buf := data, eof := 0, sosf := 0, owner := 1,
              next := ⟨r, n + 1⟩, offset := 0 }) ::
          chunkDescsF r fuel (data + (if DMA_MAX < len then DMA_MAX else len))
            (len - (if DMA_MAX < len then DMA_MAX else len)) (n + 1) := rfl

lemma chunkDescsF_congr (r : RingId) :
    ∀ len fuel₁ fuel₂ data n, len ≤ fuel₁ → len ≤ fuel₂ →
      chunkDescsF r fuel₁ data len n = chunkDescsF r fuel₂ data len n := by
  intro len
  induction len using Nat.strong_induction_on with
  | _ len ih =>
    intro fuel₁ fuel₂ data n h1 h2
    by_cases hlen : len = 0
    · subst hlen
      rw [chunkDescsF_len_zero, chunkDescsF_len_zero]
    · have hdma : 0 < DMA_MAX := by decide
      cases fuel₁ with
      | zero => omega
      | succ f₁ =>
        cases fuel₂ with
        | zero => omega
        | succ f₂ =>
          rw [chunkDescsF_succ, chunkDescsF_succ, if_neg hlen, if_neg hlen]
          congr 1
          exact ih (len - (if DMA_MAX < len then DMA_MAX else len))
            (by split <;> omega) f₁ f₂ _ _ (by split <;> omega) (by split <;> omega)

lemma chunkDescs_zero (r : RingId) (data n : Nat) : chunkDescs r data 0 n = [] := rfl

lemma chunkDescs_succ (r : RingId) (data len n : Nat) (h : len ≠ 0) :
    chunkDescs r data len n =
      (n, { size := (if DMA_MAX < len then DMA_MAX else len),
            length := (if DMA_MAX < len then DMA_MAX else len),
            buf := data, eof := 0, sosf := 0, owner := 1,
            next := ⟨r, n + 1⟩, offset := 0 }) ::
        chunkDescs r (data + (if DMA_MAX < len then DMA_MAX else len))
          (len - (if DMA_MAX < len then DMA_MAX else len)) (n + 1) := by
  have hdma : 0 < DMA_MAX := by decide
  cases len with
  | zero => exact absurd rfl h
  | succ m =>
    have hrhs : chunkDescs r (data + (if DMA_MAX < m + 1 then DMA_MAX else m + 1))
        (m + 1 - (if DMA_MAX < m + 1 then DMA_MAX else m + 1)) (n + 1) =
        chunkDescsF r m (data + (if DMA_MAX < m + 1 then DMA_MAX else m + 1))
          (m + 1 - (if DMA_MAX < m + 1 then DMA_MAX else m + 1)) (n + 1) := by
      rw [chunkDescs]
      exact chunkDescsF_congr r _ _ m _ _ (le_refl _) (by split <;> omega)
    show chunkDescsF r (m + 1) data (m + 1) n = _
    rw [chunkDescsF_succ, if_neg h, hrhs]

lemma chunkDescs_map_fst (r : RingId) :
    ∀ len data n, (chunkDescs r data len n).map Prod.fst =
      List.range' n ((len + DMA_MAX - 1) / DMA_MAX) := by
  intro len
  induction len using Nat.strong_induction_on with
  | _ len ih =>
    intro data n
    by_cases hlen : len = 0
    · subst hlen
      have h0 : (0 + DMA_MAX - 1) / DMA_MAX = 0 := by decide
      rw [chunkDescs_zero, h0]
      rfl
    · rw [chunkDescs_succ r data len n hlen]
      by_cases hd : DMA_MAX < len
      · have harith : (len + DMA_MAX - 1) / DMA_MAX =
            (len - DMA_MAX + DMA_MAX - 1) / DMA_MAX + 1 := by
          simp only [DMA_MAX] at hd ⊢
          omega
        rw [if_pos hd]
        simp only [List.map_cons]
        rw [ih (len - DMA_MAX) (by simp only [DMA_MAX] at hd ⊢; omega) _ (n + 1),
          harith, List.range'_succ]
      · have harith : (len + DMA_MAX - 1) / DMA_MAX = 1 := by
          simp only [DMA_MAX] at hd hlen ⊢
          omega
        rw [if_neg hd]
        simp only [List.map_cons]
        rw [Nat.sub_self, harith, chunkDescs_zero]
        rfl

lemma chunkDescs_length (r : RingId) (len data n : Nat) :
    (chunkDescs r data len n).length = (len + DMA_MAX - 1) / DMA_MAX := by
  have h := congrArg List.length (chunkDescs_map_fst r len data n)
  simpa using h

lemma chunkDescs_sum_size (r : RingId) :
    ∀ len data n, ((chunkDescs r data len n).map fun q => q.2.size).sum = len := by
  intro len
  induction len using Nat.strong_induction_on with
  | _ len ih =>
    intro data n
    by_cases hlen : len = 0
    · subst hlen
      rw [chunkDescs_zero]
      rfl
    · rw [chunkDescs_succ r data len n hlen]
      have hdma : 0 < DMA_MAX := by decide
      by_cases hd : DMA_MAX < len
      · simp only [List.map_cons, List.sum_cons, if_pos hd]
        rw [ih (len - DMA_MAX) (by omega) _ (n + 1)]
        omega
      · simp only [List.map_cons, List.sum_cons, if_neg hd]
        rw [Nat.sub_self, chunkDescs_zero]
        simp

lemma chunkDescs_mem (r : RingId) :
    ∀ len data n, ∀ q ∈ chunkDescs r data len n,
      q.2.size ≤ DMA_MAX ∧ q.2.length = q.2.size ∧
      q.2.next = ⟨r, q.1 + 1⟩ ∧ q.2.owner = 1 ∧ q.2.eof = 0 := by
  intro len
  induction len using Nat.strong_induction_on with
  | _ len ih =>
    intro data n q hq
    by_cases hlen : len = 0
    · subst hlen
      rw [chunkDescs_zero] at hq
      simp at hq
    · rw [chunkDescs_succ r data len n hlen] at hq
      have hdma : 0 < DMA_MAX := by decide
      rcases List.mem_cons.mp hq with h | h
      · subst h
        refine ⟨?_, rfl, rfl, rfl, rfl⟩
        show (if DMA_MAX < len then DMA_MAX else len) ≤ DMA_MAX
        split <;> omega
      · by_cases hd : DMA_MAX < len
        · rw [if_pos hd] at h
          exact ih (len - DMA_MAX) (by omega) _ _ q h
        · rw [if_neg hd, Nat.sub_self, chunkDescs_zero] at h
          simp at h

/-! ## Fill-pass lemmas -/

lemma fillPass_nil (r : RingId) (n : Nat) : fillPass r [] n = [] := rfl

lemma fillPass_sentinel (r : RingId) (sz n : Nat) (rest : List BufEntry) :
    fillPass r (⟨none, sz⟩ :: rest) n = [] := rfl

lemma fillPass_cons (r : RingId) (data sz n : Nat) (rest : List BufEntry) :
    fillPass r (⟨some data, sz⟩ :: rest) n =
      chunkDescs r data sz n ++
        fillPass r rest (n + (chunkDescs r data sz n).length) := rfl

lemma fillPass_map_fst (r : RingId) :
    ∀ (l : List BufEntry) (n : Nat),
      (fillPass r l n).map Prod.fst = List.range' n (calc_needed_dma_descs_for l) := by
  intro l
  induction l with
  | nil => intro n; rfl
  | cons e rest ih =>
    intro n
    rcases e with ⟨mem, sz⟩
    cases mem with
    | none => rfl
    | some data =>
      rw [fillPass_cons, List.map_append, chunkDescs_map_fst, ih, chunkDescs_length,
        show calc_needed_dma_descs_for (⟨some data, sz⟩ :: rest) =
          (sz + DMA_MAX - 1) / DMA_MAX + calc_needed_dma_descs_for rest from rfl,
        List.range'_append_1]
      congr 1
      omega

lemma fillPass_length (r : RingId) (l : List BufEntry) (n : Nat) :
    (fillPass r l n).length = calc_needed_dma_descs_for l := by
  have h := congrArg List.length (fillPass_map_fst r l n)
  simpa using h

lemma fillPass_sum_size (r : RingId) :
    ∀ (l : List BufEntry) (n : Nat),
      ((fillPass r l n).map fun q => q.2.size).sum = totalSize l := by
  intro l
  induction l with
  | nil => intro n; rfl
  | cons e rest ih =>
    intro n
    rcases e with ⟨mem, sz⟩
    cases mem with
    | none => rfl
    | some data =>
      rw [fillPass_cons, List.map_append, List.sum_append, chunkDescs_sum_size, ih,
        show totalSize (⟨some data, sz⟩ :: rest) = sz + totalSize rest from rfl]

lemma fillPass_mem (r : RingId) :
    ∀ (l : List BufEntry) (n : Nat), ∀ q ∈ fillPass r l n,
      q.2.size ≤ DMA_MAX ∧ q.2.length = q.2.size ∧
      q.2.next = ⟨r, q.1 + 1⟩ ∧ q.2.owner = 1 ∧ q.2.eof = 0 := by
  intro l
  induction l with
  | nil =>
    intro n q hq
    rw [fillPass_nil] at hq
    exact absurd hq (List.not_mem_nil q)
  | cons e rest ih =>
    intro n q hq
    rcases e with ⟨mem, sz⟩
    cases mem with
    | none =>
      rw [fillPass_sentinel] at hq
      exact absurd hq (List.not_mem_nil q)
    | some data =>
      rw [fillPass_cons] at hq
      rcases List.mem_append.mp hq with h | h
      · exact chunkDescs_mem r sz data n q h
      · exact ih _ q h

lemma fillPass_map_next (r : RingId) :
    ∀ (l : List BufEntry) (n : Nat),
      (fillPass r l n).map (fun q => q.2.next) =
        (List.range' n (calc_needed_dma_descs_for l)).map fun j => DescRef.mk r (j + 1) := by
  intro l n
  have h1 : (fillPass r l n).map (fun q => q.2.next) =
      (fillPass r l n).map ((fun j => DescRef.mk r (j + 1)) ∘ Prod.fst) := by
    apply List.map_congr_left
    intro q hq
    exact (fillPass_mem r l n q hq).2.2.1
  rw [h1, ← List.map_map, fillPass_map_fst]

/-! ## The closed ring produced by `fill_dma_desc` -/

lemma getD_map_fn {α β : Type} (f : α → β) (l : List α) (i : Nat) (d : α) :
    (l.map f).getD i (f d) = f (l.getD i d) := by
  induction l generalizing i with
  | nil => rfl
  | cons a t ih =>
    cases i with
    | zero => rfl
    | succ j => simpa using ih j

lemma range'_map_getD {β : Type} (f : Nat → β) :
    ∀ (m s i : Nat) (d : β), i < m → ((List.range' s m).map f).getD i d = f (s + i) := by
  intro m
  induction m with
  | zero => intro s i d h; omega
  | succ m ih =>
    intro s i d h
    rw [List.range'_succ]
    cases i with
    | zero => simp
    | succ j =>
      simp only [List.map_cons, List.getD_cons_succ]
      rw [ih (s + 1) j d (by omega)]
      congr 1
      omega

lemma fill_dma_desc_length (r : RingId) (l : List BufEntry) :
    (fill_dma_desc r l).length = calc_needed_dma_descs_for l := by
  simp only [fill_dma_desc]
  rw [modifyNext_length]
  simpa using fillPass_length r l 0

lemma fill_dma_desc_next (r : RingId) (l : List BufEntry) (i : Nat)
    (hi : i < (fill_dma_desc r l).length) :
    ((fill_dma_desc r l).getD i dummyDesc).next =
      ⟨r, if i + 1 = (fill_dma_desc r l).length then 0 else i + 1⟩ := by
  have hN := fill_dma_desc_length r l
  have hds : ((fillPass r l 0).map Prod.snd).length = calc_needed_dma_descs_for l := by
    simpa using fillPass_length r l 0
  have hi' : i < ((fillPass r l 0).map Prod.snd).length := by omega
  by_cases hlast : i = ((fillPass r l 0).map Prod.snd).length - 1
  · have hsel : (fill_dma_desc r l).getD i dummyDesc =
        { ((fillPass r l 0).map Prod.snd).getD i dummyDesc with next := ⟨r, 0⟩ } := by
      simp only [fill_dma_desc]
      rw [hlast]
      exact modifyNext_getD_self _ _ _ (by omega)
    rw [hsel]
    have hip : i + 1 = (fill_dma_desc r l).length := by omega
    simp [hip]
  · have hsel : (fill_dma_desc r l).getD i dummyDesc =
        ((fillPass r l 0).map Prod.snd).getD i dummyDesc := by
      simp only [fill_dma_desc]
      exact modifyNext_getD_ne _ _ _ i hlast
    rw [hsel]
    have h1 : (((fillPass r l 0).map Prod.snd).getD i dummyDesc).next =
        (((fillPass r l 0).map Prod.snd).map (fun d => d.next)).getD i dummyDesc.next :=
      (getD_map_fn _ _ _ _).symm
    rw [h1, List.map_map,
      show ((fun d : DmaDesc => d.next) ∘ Prod.snd) =
        (fun q : Nat × DmaDesc => q.2.next) from rfl,
      fillPass_map_next r l 0,
      range'_map_getD _ _ _ _ _ (by omega)]
    have hip : ¬ (i + 1 = (fill_dma_desc r l).length) := by omega
    simp [hip]

lemma iterNext_formula (d : List DmaDesc) (hN : 0 < d.length)
    (H : ∀ i, i < d.length → nextIdx d i = (i + 1) % d.length)
    (s : Nat) (hs : s < d.length) :
    ∀ k, iterNext d s k = (s + k) % d.length := by
  intro k
  induction k with
  | zero =>
    show s = (s + 0) % d.length
    rw [Nat.add_zero, Nat.mod_eq_of_lt hs]
  | succ k ih =>
    show nextIdx d (iterNext d s k) = (s + (k + 1)) % d.length
    rw [ih, H ((s + k) % d.length) (Nat.mod_lt _ hN), Nat.mod_add_mod]
    rfl

/-- C2: for a sentinel-terminated, non-empty segment list (all segment sizes
positive, per the data-model invariant), `fill_dma_desc` produces a closed
cycle: each descriptor's next-reference stays in the same ring and points at
the descriptor of the following index, the last points back at index 0, and
following next-references from any start index visits every descriptor
exactly once (the visited list of length `N` has no duplicates and contains
every index) before returning to the start after `N` steps. -/
theorem fill_ring_closed_cycle (r : RingId) (pre : List (Nat × Nat))
    (junk : List BufEntry) (hne : pre ≠ []) (hpos : ∀ p ∈ pre, 0 < p.2) :
    let d := fill_dma_desc r (mkEntries pre junk)
    0 < d.length ∧
    (∀ i, i < d.length →
      (d.getD i dummyDesc).next = ⟨r, if i + 1 = d.length then 0 else i + 1⟩) ∧
    (∀ s, s < d.length →
      iterNext d s d.length = s ∧
      ((List.range d.length).map (iterNext d s)).Nodup ∧
      (∀ j, j < d.length → j ∈ (List.range d.length).map (iterNext d s))) := by
  intro d
  have hcalc : 0 < calc_needed_dma_descs_for (mkEntries pre junk) := by
    cases pre with
    | nil => exact absurd rfl hne
    | cons q t =>
      have hq : 0 < q.2 := hpos q (List.mem_cons_self q t)
      rw [show calc_needed_dma_descs_for (mkEntries (q :: t) junk) =
        (q.2 + DMA_MAX - 1) / DMA_MAX +
          calc_needed_dma_descs_for (mkEntries t junk) from rfl]
      have hq2 : 0 < (q.2 + DMA_MAX - 1) / DMA_MAX := by
        simp only [DMA_MAX]
        omega
      omega
  have hlen : d.length = calc_needed_dma_descs_for (mkEntries pre junk) :=
    fill_dma_desc_length r _
  have hpos' : 0 < d.length := by omega
  have H : ∀ i, i < d.length → nextIdx d i = (i + 1) % d.length := by
    intro i hi
    have h := fill_dma_desc_next r (mkEntries pre junk) i hi
    rw [nextIdx, h]
    by_cases hip : i + 1 = d.length
    · simp [hip, Nat.mod_self]
    · have hlt : i + 1 < d.length := by omega
      simp [hip, Nat.mod_eq_of_lt hlt]
  refine ⟨hpos', fun i hi => fill_dma_desc_next r _ i hi, ?_⟩
  intro s hs
  have hfor : ∀ k, iterNext d s k = (s + k) % d.length :=
    iterNext_formula d hpos' H s hs
  refine ⟨?_, ?_, ?_⟩
  · rw [hfor, Nat.add_mod_right, Nat.mod_eq_of_lt hs]
  · have hmap : (List.range d.length).map (iterNext d s) =
        (List.range d.length).map (fun k => (s + k) % d.length) :=
      List.map_congr_left (fun k _ => hfor k)
    rw [hmap]
    refine List.Nodup.map_on ?_ (List.nodup_range _)
    intro a ha b hb hab
    have ha' := List.mem_range.mp ha
    have hb' := List.mem_range.mp hb
    have h1 : a ≡ b [MOD d.length] := Nat.ModEq.add_left_cancel' s hab
    have h2 : a % d.length = b % d.length := h1
    rw [Nat.mod_eq_of_lt ha', Nat.mod_eq_of_lt hb'] at h2
    exact h2
  · intro j hj
    refine List.mem_map.mpr ⟨(d.length + j - s) % d.length,
      List.mem_range.mpr (Nat.mod_lt _ hpos'), ?_⟩
    rw [hfor, Nat.add_mod_mod,
      show s + (d.length + j - s) = d.length + j from by omega,
      Nat.add_mod_left, Nat.mod_eq_of_lt hj]

/-- C2 witness: one 5000-byte segment splits into a two-descriptor closed
ring. -/
theorem fill_ring_closed_cycle_witness :
    ([((0 : Nat), (5000 : Nat))] : List (Nat × Nat)) ≠ [] ∧
    (∀ p ∈ ([((0 : Nat), (5000 : Nat))] : List (Nat × Nat)), 0 < p.2) ∧
    (let d := fill_dma_desc RingId.a (mkEntries [(0, 5000)] [])
    0 < d.length ∧
    (∀ i, i < d.length →
      (d.getD i dummyDesc).next =
        ⟨RingId.a, if i + 1 = d.length then 0 else i + 1⟩) ∧
    (∀ s, s < d.length →
      iterNext d s d.length = s ∧
      ((List.range d.length).map (iterNext d s)).Nodup ∧
      (∀ j, j < d.length → j ∈ (List.range d.length).map (iterNext d s)))) :=
  ⟨by decide, by decide,
    fill_ring_closed_cycle RingId.a [(0, 5000)] [] (by decide) (by decide)⟩

/-! ## Counting and size lemmas for the builder claims -/

lemma calc_mkEntries (pre : List (Nat × Nat)) (junk : List BufEntry) :
    calc_needed_dma_descs_for (mkEntries pre junk) =
      (pre.map fun p => (p.2 + DMA_MAX - 1) / DMA_MAX).sum := by
  induction pre with
  | nil => rfl
  | cons q t ih =>
    rw [show calc_needed_dma_descs_for (mkEntries (q :: t) junk) =
        (q.2 + DMA_MAX - 1) / DMA_MAX +
          calc_needed_dma_descs_for (mkEntries t junk) from rfl, ih]
    simp

lemma totalSize_mkEntries (pre : List (Nat × Nat)) (junk : List BufEntry) :
    totalSize (mkEntries pre junk) = (pre.map Prod.snd).sum := by
  induction pre with
  | nil => rfl
  | cons q t ih =>
    rw [show totalSize (mkEntries (q :: t) junk) =
        q.2 + totalSize (mkEntries t junk) from rfl, ih]
    simp

lemma calc_mkEntries_pos (pre : List (Nat × Nat)) (junk : List BufEntry)
    (hne : pre ≠ []) (hpos : ∀ p ∈ pre, 0 < p.2) :
    0 < calc_needed_dma_descs_for (mkEntries pre junk) := by
  cases pre with
  | nil => exact absurd rfl hne
  | cons q t =>
    have hq : 0 < q.2 := hpos q (List.mem_cons_self q t)
    rw [show calc_needed_dma_descs_for (mkEntries (q :: t) junk) =
      (q.2 + DMA_MAX - 1) / DMA_MAX +
        calc_needed_dma_descs_for (mkEntries t junk) from rfl]
    have hq2 : 0 < (q.2 + DMA_MAX - 1) / DMA_MAX := by
      simp only [DMA_MAX]
      omega
    omega

lemma modifyNext_mem (l : List DmaDesc) (i : Nat) (nx : DescRef) :
    ∀ d ∈ modifyNext l i nx, ∃ d₀ ∈ l, d.size = d₀.size ∧ d.length = d₀.length := by
  induction l generalizing i with
  | nil => intro d hd; exact absurd hd (List.not_mem_nil d)
  | cons a t ih =>
    intro d hd
    cases i with
    | zero =>
      rcases List.mem_cons.mp hd with h | h
      · exact ⟨a, List.mem_cons_self a t, by rw [h], by rw [h]⟩
      · exact ⟨d, List.mem_cons_of_mem a h, rfl, rfl⟩
    | succ j =>
      rcases List.mem_cons.mp hd with h | h
      · exact ⟨a, List.mem_cons_self a t, by rw [h], by rw [h]⟩
      · obtain ⟨d₀, hd₀, h1, h2⟩ := ih j d h
        exact ⟨d₀, List.mem_cons_of_mem a hd₀, h1, h2⟩

lemma modifyNext_map_size (l : List DmaDesc) (i : Nat) (nx : DescRef) :
    (modifyNext l i nx).map (fun d => d.size) = l.map fun d => d.size := by
  induction l generalizing i with
  | nil => rfl
  | cons a t ih =>
    cases i with
    | zero => rfl
    | succ j => simpa [modifyNext] using ih j

/-- C3 counterexample: two one-byte segments.  The code needs one descriptor
per segment (2 in total), while the claim's formula
`⌈total_size / max_unit⌉ = ⌈2 / 4092⌉` predicts a single descriptor. -/
theorem calc_descs_refutes_total_ceiling :
    calc_needed_dma_descs_for (mkEntries [(0, 1), (0, 1)] []) = 2 ∧
    (1 + 1 + DMA_MAX - 1) / DMA_MAX = 1 ∧ (2 : Nat) ≠ 1 := by decide

/-- C3 (amended): for a sentinel-terminated segment list the builder
produces exactly `Σ_i ⌈size_i / DMA_MAX⌉` descriptors (the per-segment sum
of ceilings, not the ceiling of the total), every chunk length is at most
`DMA_MAX`, the chunk lengths sum exactly to the total size, and the count is
independent of anything past the sentinel (the right-hand sides depend only
on `pre`, never on `junk`). -/
theorem descs_per_segment_ceiling_sum (r : RingId) (pre : List (Nat × Nat))
    (junk : List BufEntry) (hne : pre ≠ []) (hpos : ∀ p ∈ pre, 0 < p.2) :
    calc_needed_dma_descs_for (mkEntries pre junk) =
      (pre.map fun p => (p.2 + DMA_MAX - 1) / DMA_MAX).sum ∧
    (∀ d ∈ fill_dma_desc r (mkEntries pre junk),
      d.size ≤ DMA_MAX ∧ d.length = d.size) ∧
    ((fill_dma_desc r (mkEntries pre junk)).map fun d => d.size).sum =
      (pre.map Prod.snd).sum ∧
    (fill_dma_desc r (mkEntries pre junk)).length =
      calc_needed_dma_descs_for (mkEntries pre junk) := by
  refine ⟨calc_mkEntries pre junk, ?_, ?_, fill_dma_desc_length r _⟩
  · intro d hd
    simp only [fill_dma_desc] at hd
    obtain ⟨d₀, hd₀, hsz, hlen⟩ := modifyNext_mem _ _ _ d hd
    obtain ⟨q, hq, hq2⟩ := List.mem_map.mp hd₀
    obtain ⟨h1, h2, -⟩ := fillPass_mem r _ 0 q hq
    constructor
    · rw [hsz, ← hq2]
      exact h1
    · rw [hlen, hsz, ← hq2]
      exact h2
  · simp only [fill_dma_desc]
    rw [modifyNext_map_size, List.map_map,
      show ((fun d : DmaDesc => d.size) ∘ Prod.snd) =
        (fun q : Nat × DmaDesc => q.2.size) from rfl,
      fillPass_sum_size, totalSize_mkEntries]

/-- C3 witness: the amended count/size facts at one 5000-byte segment. -/
theorem descs_per_segment_ceiling_sum_witness :
    ([((0 : Nat), (5000 : Nat))] : List (Nat × Nat)) ≠ [] ∧
    (∀ p ∈ ([((0 : Nat), (5000 : Nat))] : List (Nat × Nat)), 0 < p.2) ∧
    (calc_needed_dma_descs_for (mkEntries [(0, 5000)] []) =
      (([((0 : Nat), (5000 : Nat))] : List (Nat × Nat)).map
        fun p => (p.2 + DMA_MAX - 1) / DMA_MAX).sum ∧
    (∀ d ∈ fill_dma_desc RingId.b (mkEntries [(0, 5000)] []),
      d.size ≤ DMA_MAX ∧ d.length = d.size) ∧
    ((fill_dma_desc RingId.b (mkEntries [(0, 5000)] [])).map fun d => d.size).sum =
      (([((0 : Nat), (5000 : Nat))] : List (Nat × Nat)).map Prod.snd).sum ∧
    (fill_dma_desc RingId.b (mkEntries [(0, 5000)] [])).length =
      calc_needed_dma_descs_for (mkEntries [(0, 5000)] [])) :=
  ⟨by decide, by decide,
    descs_per_segment_ceiling_sum RingId.b [(0, 5000)] [] (by decide) (by decide)⟩

/-- C10: for a sentinel-terminated, non-empty segment list with all segment
sizes positive, the fill pass writes descriptors at exactly the indices
`0 .. N-1` where `N` is the count returned by `calc_needed_dma_descs_for`
for the same list; `N ≥ 1`, so the final loop-closing write to index `N - 1`
is inside the allocated array, and every accessed descriptor index lies in
`[0, N)`. -/
theorem fill_writes_exact_indices (r : RingId) (pre : List (Nat × Nat))
    (junk : List BufEntry) (hne : pre ≠ []) (hpos : ∀ p ∈ pre, 0 < p.2) :
    1 ≤ calc_needed_dma_descs_for (mkEntries pre junk) ∧
    (fillPass r (mkEntries pre junk) 0).map Prod.fst =
      List.range (calc_needed_dma_descs_for (mkEntries pre junk)) ∧
    calc_needed_dma_descs_for (mkEntries pre junk) - 1 <
      calc_needed_dma_descs_for (mkEntries pre junk) ∧
    (fill_dma_desc r (mkEntries pre junk)).length =
      calc_needed_dma_descs_for (mkEntries pre junk) := by
  have h1 := calc_mkEntries_pos pre junk hne hpos
  refine ⟨h1, ?_, by omega, fill_dma_desc_length r _⟩
  rw [fillPass_map_fst]
  exact (List.range_eq_range' _).symm

/-- C10 witness: the exact-indices property at one 5000-byte segment. -/
theorem fill_writes_exact_indices_witness :
    ([((0 : Nat), (5000 : Nat))] : List (Nat × Nat)) ≠ [] ∧
    (∀ p ∈ ([((0 : Nat), (5000 : Nat))] : List (Nat × Nat)), 0 < p.2) ∧
    (1 ≤ calc_needed_dma_descs_for (mkEntries [(0, 5000)] []) ∧
    (fillPass RingId.a (mkEntries [(0, 5000)] []) 0).map Prod.fst =
      List.range (calc_needed_dma_descs_for (mkEntries [(0, 5000)] [])) ∧
    calc_needed_dma_descs_for (mkEntries [(0, 5000)] []) - 1 <
      calc_needed_dma_descs_for (mkEntries [(0, 5000)] []) ∧
    (fill_dma_desc RingId.a (mkEntries [(0, 5000)] [])).length =
      calc_needed_dma_descs_for (mkEntries [(0, 5000)] [])) :=
  ⟨by decide, by decide,
    fill_writes_exact_indices RingId.a [(0, 5000)] [] (by decide) (by decide)⟩
